import Mathlib

/-!
# Verification of the smart_home TCP command-relay core

Shallow embedding of the networking core of the `otus_homeworks` repository
(crate `smart_home`): the length-prefixed framing codec
(`src/smart_home/src/network/mod.rs`, `send_string` / `recv_string`), the
command envelope parser and the reader / analyzer / sender loops of the
coordinator (`src/smart_home/src/place/home.rs`), and the peripheral's
registration handshake (`src/smart_home/src/devices/socket.rs`).

Modelling conventions:
* Rust `String` text is modelled as `List Char`; `Str` abbreviates it.
* Byte streams are `List Nat` with every element a value below 256.
* A Rust thread panic (an `unwrap()` of `None` / `Err`) is modelled as the
  `none` outcome of an `Option`-valued step function.
* The shared `VecDeque` queues are modelled as `List`: `push_front` is `cons`
  and `pop_back` takes the last element, exactly as in the source.
* The `regex` character classes `\w` and `\s` are modelled over ASCII
  (letters, digits, underscore, resp. the six ASCII whitespace characters).
-/

/-- Rust `String` contents, as a list of unicode scalar values. -/
abbrev Str := List Char

/-- Coerce a Lean string literal to the `Str` model. -/
def str (s : String) : Str := s.data

/-- The `regex` class `\w` (modelled over ASCII): letters, digits, underscore. -/
def isWordChar (c : Char) : Bool := c.isAlphanum || c == '_'

/-- The `regex` class `\s` (modelled over ASCII whitespace). -/
def isSpaceChar (c : Char) : Bool :=
  c == ' ' || c == '\t' || c == '\n' || c == '\r' || c == '\x0b' || c == '\x0c'

/-- `TcpCommand` (src/smart_home/src/network/tcp_command.rs as used by
`place/home.rs`): verb, argument text and sender identity (the peer address
string the command came from, reused as destination on the way out). -/
structure TcpCommand where
  command : Str
  args : Str
  sender : Str
deriving DecidableEq, Repr

/-- `TcpCommand::to_string`: `format!("[{}: [{}]]", command, args)`. -/
def serializeCmd (c : TcpCommand) : Str :=
  '[' :: (c.command ++ ':' :: ' ' :: '[' :: (c.args ++ ']' :: ']' :: []))

/-! ## The shared queues (`Arc<Mutex<VecDeque<TcpCommand>>>`)

Both `handle_function` and `job_analyze_commands` enqueue with
`push_front`, and both consuming loops (`job_analyze_commands`,
`job_send_commands_out`) dequeue with `pop_back`. -/

/-- `VecDeque::push_front` on the list model: `cons`. -/
def pushFront (x : α) (q : List α) : List α := x :: q

/-- `VecDeque::pop_back` on the list model: detach the last element. -/
def popBack (q : List α) : Option (α × List α) :=
  match q.reverse with
  | [] => none
  | x :: t => some (x, t.reverse)

/-- Enqueue a batch of elements in the given order, `push_front` each. -/
def pushFrontAll (xs : List α) (q : List α) : List α :=
  xs.foldl (fun acc x => pushFront x acc) q

/-- One consuming loop iteration sequence: keep calling `pop_back` until the
queue is empty, collecting the popped elements in pop order (fuel-indexed
so the recursion is structural). -/
def drainGo : Nat → List α → List α
  | 0, _ => []
  | fuel + 1, q =>
    match popBack q with
    | none => []
    | some (x, t) => x :: drainGo fuel t

/-- The complete pop order of a queue under repeated `pop_back`. -/
def drainAll (q : List α) : List α := drainGo q.length q

/-! ## The connection registry (`Arc<Mutex<HashMap<String, TcpConnection>>>`)

A `TcpConnection` handle is modelled as a bare `Nat` identifier; the map is
an association list keyed by the identity string.  `HashMap::insert`
replaces the stored value and returns the previous one. -/

/-- A live `TcpConnection` handle. -/
abbrev Conn := Nat

/-- The `tcp_clients` map. -/
abbrev Registry := List (Str × Conn)

/-- `HashMap::get` / `contains_key`: first binding for the key. -/
def lookupReg : Registry → Str → Option Conn
  | [], _ => none
  | (k, v) :: rest, key => if k = key then some v else lookupReg rest key

/-- `HashMap::insert`: store the binding, returning the updated map together
with the previously stored value (`Some old` on overwrite, `None` if the
key was absent). -/
def insertReg (r : Registry) (key : Str) (v : Conn) : Registry × Option Conn :=
  match lookupReg r key with
  | some old => (r.map (fun kv => if kv.1 = key then (key, v) else kv), some old)
  | none => ((key, v) :: r, none)

/-! ## Reader task (`home.rs::handle_function` and `start_receive`)

`start_receive` spawns, per accepted connection, a thread that first runs
`tcp_clients.insert(addr, conn).unwrap()` — `insert` returns the *previous*
value, so the `unwrap` panics exactly when the address was not yet in the
map — and then enters `handle_function`, which per received frame runs the
envelope regex `\[(\w+):\s*\[(\w+)\]\]`, calls `.captures(..).unwrap()`
(a panic when the regex does not match), builds a `TcpCommand` whose sender
is the connection's peer address, and `push_front`s it onto `commands`. -/

/-- Match the envelope regex at the head of the text: literal `[`, one or
more word characters (group 1), literal `:`, any run of whitespace, literal
`[`, one or more word characters (group 2), then `]]`. Greedy `\w+` / `\s*`
need no backtracking here because each run is followed by a literal outside
its class. -/
def matchFragAt : Str → Option (Str × Str)
  | [] => none
  | c :: rest =>
    if c = '[' then
      if (rest.takeWhile isWordChar).isEmpty then none
      else
        match rest.drop (rest.takeWhile isWordChar).length with
        | ':' :: rest2 =>
          match rest2.drop (rest2.takeWhile isSpaceChar).length with
          | '[' :: rest3 =>
            if (rest3.takeWhile isWordChar).isEmpty then none
            else
              match rest3.drop (rest3.takeWhile isWordChar).length with
              | ']' :: ']' :: _ =>
                some (rest.takeWhile isWordChar, rest3.takeWhile isWordChar)
              | _ => none
          | _ => none
        | _ => none
    else none

/-- `Regex::captures` for `\[(\w+):\s*\[(\w+)\]\]`: the two capture groups of
the leftmost match, scanning start positions left to right. -/
def envelopeCapture : Str → Option (Str × Str)
  | [] => none
  | c :: rest =>
    match matchFragAt (c :: rest) with
    | some r => some r
    | none => envelopeCapture rest

/-- One `handle_function` loop iteration on a received frame text:
`none` models the thread panic from `captures(..).unwrap()` on a regex
mismatch; on a match, the parsed command (sender = peer address) is
`push_front`ed onto the inbound queue. -/
def handleFrame (peerAddr : Str) (request : Str) (q : List TcpCommand) :
    Option (List TcpCommand) :=
  match envelopeCapture request with
  | none => none
  | some (v, a) => some (pushFront ⟨v, a, peerAddr⟩ q)

/-- The per-connection thread prologue in `start_receive`:
`tcp_clients.insert(addr, conn).unwrap()`.  `none` models the panic when
`insert` returns `None` (the address was absent from the registry). -/
def acceptConn (reg : Registry) (peerAddr : Str) (conn : Conn) :
    Option Registry :=
  let p := insertReg reg peerAddr conn
  match p.2 with
  | none => none
  | some _ => some p.1

/-! ## Analyzer loop (`HomeRequestHandler::job_analyze_commands`) -/

/-- One analyzer iteration on a popped inbound command: on verb `register`,
`push_front` an `OK` command (empty args, addressed to the sender) and then
an `info` command (empty args, same addressee) onto the outbound queue;
any other verb leaves the outbound queue unchanged. -/
def analyzeStep (cmd : TcpCommand) (outq : List TcpCommand) : List TcpCommand :=
  if cmd.command = str "register" then
    pushFront ⟨str "info", [], cmd.sender⟩
      (pushFront ⟨str "OK", [], cmd.sender⟩ outq)
  else outq

/-! ## Sender loop (`HomeRequestHandler::job_send_commands_out`) -/

/-- Transmission of one popped outbound command: resolve the destination
(the command's `sender` field) in `tcp_clients` — `.unwrap()` panics
(`none`) when absent — and write the serialized envelope to that
connection. The result records destination identity and frame text. -/
def sendOne (reg : Registry) (cmd : TcpCommand) : Option (Str × Str) :=
  match lookupReg reg cmd.sender with
  | none => none
  | some _ => some (cmd.sender, serializeCmd cmd)

/-- Transmit a list of commands in order, stopping with `none` (the panic)
at the first command whose destination is missing from the registry. -/
def sendAll (reg : Registry) : List TcpCommand → Option (List (Str × Str))
  | [] => some []
  | c :: rest =>
    match sendOne reg c with
    | none => none
    | some p => (sendAll reg rest).map (fun ps => p :: ps)

/-- A full drain of the outbound queue by the sender loop: pop with
`pop_back` until empty, transmitting each command in pop order; `none`
models the panic on the first command whose destination is missing from the
registry. -/
def sendLoopRun (reg : Registry) (outq : List TcpCommand) :
    Option (List (Str × Str)) :=
  sendAll reg (drainAll outq)

/-! ## Peripheral registration handshake (`socket.rs::Socket::try_register`)

The socket connects, sends `format!("[register: [{}]]", self.name)`, does
one blocking `recv_string`, and compares the reply text with the literal
`"[OK: []]"`.  On any other reply it returns `Err` (no retry).  On the
exact literal it calls `save_tcp_client(conn, "home").unwrap()`:
`save_tcp_client` itself errs when the key is already present, so that
`unwrap` is a panic in that case; otherwise the connection is stored under
the logical name `"home"`. -/

/-- Outcome of the registration handshake after the reply arrived. -/
inductive RegOutcome where
  /-- The `save_tcp_client(..).unwrap()` panic (name `"home"` already taken). -/
  | panicked : RegOutcome
  /-- `Err(format!("SOCKET. try register error. received {:?}", result))`:
  rejection carrying the received reply text. -/
  | rejected (received : Str) : RegOutcome
  /-- `Ok(())`, with the updated `tcp_clients` map. -/
  | registered (clients : Registry) : RegOutcome
deriving DecidableEq, Repr

/-- The frame text `try_register` sends first. -/
def registerFrame (name : Str) : Str := str "[register: [" ++ name ++ str "]]"

/-- `try_register` after the single blocking receive, as a function of the
reply text and the socket's current `tcp_clients` map. -/
def tryRegister (reply : Str) (clients : Registry) (conn : Conn) : RegOutcome :=
  if reply ≠ str "[OK: []]" then
    .rejected reply
  else
    match lookupReg clients (str "home") with
    | some _ => .panicked
    | none => .registered ((insertReg clients (str "home") conn).1)

/-! ## Framing codec (`network/mod.rs`)

`send_string` writes `bytes.len() as u32` in big-endian followed by the
UTF-8 bytes; `recv_string` reads exactly 4 length bytes, then exactly that
many payload bytes (`read_exact` fails on a short read), and UTF-8-decodes
the payload (`String::from_utf8` failure is mapped to
`ErrorKind::Unsupported`).  Text is a list of unicode scalar values; the
UTF-8 encoder/decoder below follows the Rust `char` encoding and the
`from_utf8` validation (rejecting overlong forms, surrogates and values
above `0x10FFFF`). -/

/-- A unicode scalar value (what a Rust `char` may hold). -/
def ScalarValue (n : Nat) : Prop := n < 0x110000 ∧ ¬(0xD800 ≤ n ∧ n ≤ 0xDFFF)

instance (n : Nat) : Decidable (ScalarValue n) := by
  unfold ScalarValue; infer_instance

/-- UTF-8 encoding of one scalar value. -/
def utf8EncodeChar (n : Nat) : List Nat :=
  if n < 0x80 then [n]
  else if n < 0x800 then [0xC0 + n / 0x40, 0x80 + n % 0x40]
  else if n < 0x10000 then
    [0xE0 + n / 0x1000, 0x80 + n / 0x40 % 0x40, 0x80 + n % 0x40]
  else
    [0xF0 + n / 0x40000, 0x80 + n / 0x1000 % 0x40, 0x80 + n / 0x40 % 0x40,
      0x80 + n % 0x40]

/-- UTF-8 encoding of a scalar-value sequence. -/
def utf8EncodeList (cs : List Nat) : List Nat := cs.flatMap utf8EncodeChar

/-- Decode one UTF-8 sequence from the head of a byte list, returning the
scalar value and the remaining bytes.  The accepted byte ranges are those
of Rust's `from_utf8` validation: lead `C2..DF` + 1 continuation;
`E0 A0..BF`, `E1..EC 80..BF`, `ED 80..9F`, `EE..EF 80..BF` + 1 more
continuation; `F0 90..BF`, `F1..F3 80..BF`, `F4 80..8F` + 2 more
continuations; continuations are `80..BF`. -/
def utf8DecodeOne : List Nat → Option (Nat × List Nat)
  | [] => none
  | b :: rest =>
    if b < 0x80 then some (b, rest)
    else if b < 0xC2 then none
    else if b < 0xE0 then
      match rest with
      | c1 :: rest1 =>
        if 0x80 ≤ c1 ∧ c1 < 0xC0 then
          some ((b - 0xC0) * 0x40 + (c1 - 0x80), rest1)
        else none
      | [] => none
    else if b < 0xF0 then
      match rest with
      | c1 :: c2 :: rest2 =>
        if ((b = 0xE0 ∧ 0xA0 ≤ c1 ∧ c1 < 0xC0) ∨
            (0xE1 ≤ b ∧ b ≤ 0xEC ∧ 0x80 ≤ c1 ∧ c1 < 0xC0) ∨
            (b = 0xED ∧ 0x80 ≤ c1 ∧ c1 < 0xA0) ∨
            (0xEE ≤ b ∧ 0x80 ≤ c1 ∧ c1 < 0xC0)) ∧
           0x80 ≤ c2 ∧ c2 < 0xC0 then
          some ((b - 0xE0) * 0x1000 + (c1 - 0x80) * 0x40 + (c2 - 0x80), rest2)
        else none
      | _ => none
    else if b < 0xF5 then
      match rest with
      | c1 :: c2 :: c3 :: rest3 =>
        if ((b = 0xF0 ∧ 0x90 ≤ c1 ∧ c1 < 0xC0) ∨
            (0xF1 ≤ b ∧ b ≤ 0xF3 ∧ 0x80 ≤ c1 ∧ c1 < 0xC0) ∨
            (b = 0xF4 ∧ 0x80 ≤ c1 ∧ c1 < 0x90)) ∧
           0x80 ≤ c2 ∧ c2 < 0xC0 ∧ 0x80 ≤ c3 ∧ c3 < 0xC0 then
          some ((b - 0xF0) * 0x40000 + (c1 - 0x80) * 0x1000 +
            (c2 - 0x80) * 0x40 + (c3 - 0x80), rest3)
        else none
      | _ => none
    else none

/-- Fuel-indexed UTF-8 decoding loop; `fuel ≥` the byte count suffices. -/
def utf8DecodeGo : Nat → List Nat → Option (List Nat)
  | _, [] => some []
  | 0, _ :: _ => none
  | fuel + 1, b :: rest =>
    match utf8DecodeOne (b :: rest) with
    | none => none
    | some (c, rest1) => (utf8DecodeGo fuel rest1).map (fun cs => c :: cs)

/-- `String::from_utf8` on the scalar-value model: decode the whole byte
list or fail. -/
def utf8Decode (bs : List Nat) : Option (List Nat) := utf8DecodeGo bs.length bs

/-- A byte list is valid UTF-8 iff it is the encoding of some sequence of
unicode scalar values. -/
def Utf8Valid (bs : List Nat) : Prop :=
  ∃ cs : List Nat, (∀ c ∈ cs, ScalarValue c) ∧ utf8EncodeList cs = bs

/-- `u32::to_be_bytes` (for a value already reduced below `2^32`). -/
def toBE4 (n : Nat) : List Nat :=
  [n / 0x1000000 % 0x100, n / 0x10000 % 0x100, n / 0x100 % 0x100, n % 0x100]

/-- `u32::from_be_bytes` of a 4-byte list. -/
def fromBE4 (bs : List Nat) : Nat := bs.foldl (fun acc b => acc * 0x100 + b) 0

/-- Scalar-value view of a `Str`. -/
def strScalars (s : Str) : List Nat := s.map (fun c => c.toNat)

/-- `send_string`: the bytes appended to the writer — the payload's byte
length cast to `u32` (`% 2^32`) in big-endian, then the UTF-8 payload. -/
def sendString (text : List Nat) : List Nat :=
  toBE4 ((utf8EncodeList text).length % 0x100000000) ++ utf8EncodeList text

/-- Errors of `recv_string`. -/
inductive NetError where
  /-- `read_exact` hit end of stream before filling the buffer. -/
  | frameIo : NetError
  /-- `String::from_utf8` failed (`ErrorKind::Unsupported`). -/
  | decodeErr : NetError
deriving DecidableEq, Repr

/-- `recv_string` on a byte stream: read exactly 4 length bytes, then
exactly that many payload bytes, then UTF-8 decode.  Returns the text and
the unread remainder of the stream. -/
def recvString (input : List Nat) : Except NetError (List Nat × List Nat) :=
  if input.length < 4 then .error .frameIo
  else if (input.drop 4).length < fromBE4 (input.take 4) then .error .frameIo
  else
    match utf8Decode ((input.drop 4).take (fromBE4 (input.take 4))) with
    | none => .error .decodeErr
    | some cs => .ok (cs, (input.drop 4).drop (fromBE4 (input.take 4)))

/-! ## The envelope grammar as a specification predicate

Independent characterisation of what the regex `\[(\w+):\s*\[(\w+)\]\]`
can match, used to state claims about the parser. -/

/-- A `\w+` run: nonempty, all word characters. -/
def WordStr (v : Str) : Prop := v ≠ [] ∧ ∀ c ∈ v, isWordChar c

/-- A `\s*` run: all whitespace characters. -/
def SpaceStr (ws : Str) : Prop := ∀ c ∈ ws, isSpaceChar c

instance (v : Str) : Decidable (WordStr v) := by
  unfold WordStr; infer_instance

instance (ws : Str) : Decidable (SpaceStr ws) := by
  unfold SpaceStr; infer_instance

/-- The literal text of one envelope fragment `[v:<ws>[a]]`. -/
def fragment (v ws a : Str) : Str :=
  '[' :: v ++ ':' :: ws ++ '[' :: a ++ ']' :: ']' :: []

/-- An envelope fragment starts at the head of `l`. -/
def FragHead (l : Str) : Prop :=
  ∃ v ws a rest, WordStr v ∧ SpaceStr ws ∧ WordStr a ∧ l = fragment v ws a ++ rest

/-- `s` contains an envelope fragment somewhere as a substring. -/
def ContainsFragment (s : Str) : Prop :=
  ∃ pre v ws a post, WordStr v ∧ SpaceStr ws ∧ WordStr a ∧
    s = pre ++ fragment v ws a ++ post

/-! # Theorems -/

/-! ## Queue discipline -/

theorem popBack_reverse_cons {q t : List α} {x : α}
    (h : q.reverse = x :: t) : popBack q = some (x, t.reverse) := by
  unfold popBack
  rw [h]

theorem drainGo_eq_reverse (fuel : Nat) (q : List α) (h : q.length ≤ fuel) :
    drainGo fuel q = q.reverse := by
  induction fuel generalizing q with
  | zero =>
    have : q = [] := by
      cases q with
      | nil => rfl
      | cons a t => simp at h
    subst this; rfl
  | succ n ih =>
    cases hrev : q.reverse with
    | nil =>
      have : q = [] := by simpa using congrArg List.reverse hrev
      subst this; rfl
    | cons x t =>
      have hpop := popBack_reverse_cons hrev
      have hq : q = (x :: t).reverse := by
        have := congrArg List.reverse hrev
        simpa using this
      have hlen : t.reverse.length ≤ n := by
        subst hq
        simp at h ⊢
        omega
      simp only [drainGo, hpop]
      rw [ih _ hlen]
      subst hq
      simp

/-- Repeated `pop_back` yields the queue's elements oldest-first: the pop
order is the reverse of the `push_front` representation. -/
theorem drainAll_eq_reverse (q : List α) : drainAll q = q.reverse :=
  drainGo_eq_reverse q.length q (Nat.le_refl _)

theorem pushFrontAll_eq (xs q : List α) :
    pushFrontAll xs q = xs.reverse ++ q := by
  induction xs generalizing q with
  | nil => rfl
  | cons x t ih =>
    simp only [pushFrontAll, List.foldl_cons] at *
    rw [ih (pushFront x q)]
    simp [pushFront]

theorem drainAll_pushFrontAll (xs q : List α) :
    drainAll (pushFrontAll xs q) = drainAll q ++ xs := by
  rw [drainAll_eq_reverse, drainAll_eq_reverse, pushFrontAll_eq]
  simp

/-! ## Sender loop lemmas -/

theorem sendAll_map (reg : Registry) (xs : List TcpCommand)
    (h : ∀ c ∈ xs, (lookupReg reg c.sender).isSome) :
    sendAll reg xs = some (xs.map (fun c => (c.sender, serializeCmd c))) := by
  induction xs with
  | nil => rfl
  | cons c rest ih =>
    have hc : (lookupReg reg c.sender).isSome := h c (List.mem_cons_self c rest)
    obtain ⟨conn, hconn⟩ := Option.isSome_iff_exists.mp hc
    have hrest := ih (fun x hx => h x (List.mem_cons_of_mem c hx))
    simp only [sendAll, sendOne, hconn, hrest, Option.map_some', List.map_cons]

theorem sendAll_sound (reg : Registry) (xs : List TcpCommand)
    (out : List (Str × Str)) (h : sendAll reg xs = some out) :
    ∀ p ∈ out, (lookupReg reg p.1).isSome := by
  induction xs generalizing out with
  | nil =>
    simp only [sendAll, Option.some.injEq] at h
    subst h
    intro p hp
    cases hp
  | cons c rest ih =>
    simp only [sendAll] at h
    cases hone : sendOne reg c with
    | none => rw [hone] at h; cases h
    | some p0 =>
      rw [hone] at h
      cases hall : sendAll reg rest with
      | none => rw [hall] at h; cases h
      | some ps =>
        rw [hall] at h
        simp only [Option.map_some', Option.some.injEq] at h
        subst h
        intro p hp
        rcases List.mem_cons.mp hp with hp0 | hps
        · subst hp0
          unfold sendOne at hone
          cases hlook : lookupReg reg c.sender with
          | none => rw [hlook] at hone; cases hone
          | some conn =>
            rw [hlook] at hone
            simp only [Option.some.injEq] at hone
            subst hone
            simp [hlook]
        · exact ih ps hall p hps

/-- **C4.** Queues are FIFO in `home.rs`: both producers use
`VecDeque::push_front` and both consuming loops use `pop_back`, so commands
are popped — and, by the sender loop, transmitted — in exactly the order
they were enqueued. -/
theorem claim_C4_queue_fifo :
    (∀ (xs q : List TcpCommand), drainAll (pushFrontAll xs q) = drainAll q ++ xs) ∧
    (∀ (reg : Registry) (xs : List TcpCommand),
      (∀ c ∈ xs, (lookupReg reg c.sender).isSome) →
      sendLoopRun reg (pushFrontAll xs []) =
        some (xs.map (fun c => (c.sender, serializeCmd c)))) := by
  constructor
  · exact drainAll_pushFrontAll
  · intro reg xs h
    have hq : drainAll (pushFrontAll xs []) = xs := by
      rw [drainAll_pushFrontAll]
      rfl
    unfold sendLoopRun
    rw [hq]
    exact sendAll_map reg xs h

/-- Witness for C4: the commands with args `"1"`..`"5"` enqueued in that
order are transmitted in that same order. -/
theorem claim_C4_queue_fifo_witness :
    sendLoopRun [(str "p", 0)]
      (pushFrontAll
        [⟨str "c", str "1", str "p"⟩, ⟨str "c", str "2", str "p"⟩,
         ⟨str "c", str "3", str "p"⟩, ⟨str "c", str "4", str "p"⟩,
         ⟨str "c", str "5", str "p"⟩] []) =
      some
        [(str "p", str "[c: [1]]"), (str "p", str "[c: [2]]"),
         (str "p", str "[c: [3]]"), (str "p", str "[c: [4]]"),
         (str "p", str "[c: [5]]")] := by
  have := claim_C4_queue_fifo.2 [(str "p", 0)]
    [⟨str "c", str "1", str "p"⟩, ⟨str "c", str "2", str "p"⟩,
     ⟨str "c", str "3", str "p"⟩, ⟨str "c", str "4", str "p"⟩,
     ⟨str "c", str "5", str "p"⟩] (by decide)
  simpa [str, serializeCmd] using this

/-! ## Analyzer and coordinator handshake -/

/-- **C3.** On a `register` command popped from the inbound queue, the
analyzer `push_front`s an `OK` command (empty args, addressed to the
sender) and then an `info` command (empty args, same addressee) onto the
outbound queue, and the sender loop — popping with `pop_back` — transmits
the frame `[OK: []]` before `[info: []]`, both to that sender. -/
theorem claim_C3_register_reply_order (sndr args : Str) (reg : Registry)
    (conn : Conn) (h : lookupReg reg sndr = some conn) :
    analyzeStep ⟨str "register", args, sndr⟩ [] =
      [⟨str "info", [], sndr⟩, ⟨str "OK", [], sndr⟩] ∧
    sendLoopRun reg (analyzeStep ⟨str "register", args, sndr⟩ []) =
      some [(sndr, str "[OK: []]"), (sndr, str "[info: []]")] := by
  have hstep : analyzeStep ⟨str "register", args, sndr⟩ [] =
      [⟨str "info", [], sndr⟩, ⟨str "OK", [], sndr⟩] := by
    simp [analyzeStep, pushFront]
  refine ⟨hstep, ?_⟩
  rw [hstep]
  unfold sendLoopRun
  rw [drainAll_eq_reverse]
  have hOK : serializeCmd ⟨str "OK", [], sndr⟩ = str "[OK: []]" := by
    simp only [serializeCmd, str]
    decide
  have hinfo : serializeCmd ⟨str "info", [], sndr⟩ = str "[info: []]" := by
    simp only [serializeCmd, str]
    decide
  simp [sendAll, sendOne, h, hOK, hinfo]

/-- Witness for C3: a concrete registered peer receives `[OK: []]` then
`[info: []]`. -/
theorem claim_C3_register_reply_order_witness :
    sendLoopRun [(str "127.0.0.1:50001", 4)]
      (analyzeStep ⟨str "register", str "dev01", str "127.0.0.1:50001"⟩ []) =
      some [(str "127.0.0.1:50001", str "[OK: []]"),
            (str "127.0.0.1:50001", str "[info: []]")] :=
  (claim_C3_register_reply_order (str "127.0.0.1:50001") (str "dev01")
    [(str "127.0.0.1:50001", 4)] 4 (by decide)).2

/-- **C6 (counterexample).** The claim says a command whose destination is
absent from the registry is dropped with a `RegistryMiss` signal and
without crashing — i.e. the drain completes (with that send skipped).  In
the code, `job_send_commands_out` runs
`clients.get_mut(command_out.sender).unwrap()`, which panics: the drain
does not complete at all (`none`). -/
theorem claim_C6_counterexample :
    sendLoopRun [] (pushFront ⟨str "OK", [], str "10.0.0.1:1"⟩ []) = none := by
  decide

/-- **C6 (amended).** When the destination identity of a popped outbound
command is absent from the registry, the sender loop panics on the
`unwrap` of the registry lookup (it neither signals a recoverable
`RegistryMiss` nor merely drops the command); every send that does happen
goes to an identity present in the registry. -/
theorem claim_C6_registry_miss_panics :
    (∀ (reg : Registry) (cmd : TcpCommand),
      lookupReg reg cmd.sender = none → sendLoopRun reg [cmd] = none) ∧
    (∀ (reg : Registry) (q : List TcpCommand) (out : List (Str × Str)),
      sendLoopRun reg q = some out → ∀ p ∈ out, (lookupReg reg p.1).isSome) := by
  constructor
  · intro reg cmd h
    have hd : drainAll [cmd] = [cmd] := by
      rw [drainAll_eq_reverse]; rfl
    unfold sendLoopRun
    rw [hd]
    simp [sendAll, sendOne, h]
  · intro reg q out h
    exact sendAll_sound reg (drainAll q) out h

/-- Witness for C6 (amended): a concrete absent destination makes the
sender loop panic. -/
theorem claim_C6_registry_miss_panics_witness :
    sendLoopRun [] [⟨str "info", [], str "10.0.0.2:7"⟩] = none :=
  claim_C6_registry_miss_panics.1 [] ⟨str "info", [], str "10.0.0.2:7"⟩ rfl

/-! ## Envelope grammar lemmas -/

theorem takeWhile_append_run {p : Char → Bool} {v : Str} {x : Char} (t : Str)
    (hv : ∀ c ∈ v, p c = true) (hx : p x = false) :
    (v ++ x :: t).takeWhile p = v := by
  induction v with
  | nil => simp [List.takeWhile_cons, hx]
  | cons a w ih =>
    have ha : p a = true := hv a (List.mem_cons_self a w)
    simp only [List.cons_append, List.takeWhile_cons, ha, if_true]
    rw [ih (fun c hc => hv c (List.mem_cons_of_mem a hc))]

theorem drop_takeWhile_length (p : Char → Bool) (l : Str) :
    l.drop (l.takeWhile p).length = l.dropWhile p := by
  induction l with
  | nil => rfl
  | cons a t ih =>
    by_cases h : p a
    · simp [List.takeWhile_cons, List.dropWhile_cons, h, ih]
    · simp [List.takeWhile_cons, List.dropWhile_cons, h]

theorem matchFragAt_complete {v ws a : Str} (rest : Str)
    (hv : WordStr v) (hws : SpaceStr ws) (ha : WordStr a) :
    matchFragAt (fragment v ws a ++ rest) = some (v, a) := by
  obtain ⟨hvne, hvw⟩ := hv
  obtain ⟨hane, haw⟩ := ha
  have hfrag : fragment v ws a ++ rest =
      '[' :: (v ++ ':' :: (ws ++ '[' :: (a ++ ']' :: ']' :: rest))) := by
    simp [fragment]
  rw [hfrag]
  have h1 : (v ++ ':' :: (ws ++ '[' :: (a ++ ']' :: ']' :: rest))).takeWhile
      isWordChar = v :=
    takeWhile_append_run _ hvw (by decide)
  have h2 : (ws ++ '[' :: (a ++ ']' :: ']' :: rest)).takeWhile isSpaceChar = ws :=
    takeWhile_append_run _ hws (by decide)
  have h3 : (a ++ ']' :: ']' :: rest).takeWhile isWordChar = a :=
    takeWhile_append_run _ haw (by decide)
  have hvne' : v.isEmpty = false := by
    cases v with
    | nil => exact absurd rfl hvne
    | cons _ _ => rfl
  have hane' : a.isEmpty = false := by
    cases a with
    | nil => exact absurd rfl hane
    | cons _ _ => rfl
  simp only [matchFragAt, h1, h2, h3, hvne', hane', Bool.false_eq_true,
    if_false, List.drop_left]
  simp

theorem matchFragAt_sound {l : Str} {v a : Str}
    (h : matchFragAt l = some (v, a)) :
    ∃ ws tail, WordStr v ∧ SpaceStr ws ∧ WordStr a ∧
      l = fragment v ws a ++ tail := by
  cases l with
  | nil => simp [matchFragAt] at h
  | cons c rest =>
    simp only [matchFragAt] at h
    split at h
    case isFalse => exact absurd h (by simp)
    case isTrue hc =>
      subst hc
      split at h
      case isTrue => exact absurd h (by simp)
      case isFalse hvne =>
        split at h
        case h_2 => exact absurd h (by simp)
        case h_1 rest2 hdrop =>
          split at h
          case h_2 => exact absurd h (by simp)
          case h_1 rest3 hdrop2 =>
            split at h
            case isTrue => exact absurd h (by simp)
            case isFalse hane =>
              split at h
              case h_2 => exact absurd h (by simp)
              case h_1 tail hdrop3 =>
                simp only [Option.some.injEq, Prod.mk.injEq] at h
                obtain ⟨hv, ha⟩ := h
                subst hv
                subst ha
                refine ⟨rest2.takeWhile isSpaceChar, tail, ?_, ?_, ?_, ?_⟩
                · refine ⟨?_, fun c hc => List.mem_takeWhile_imp hc⟩
                  intro hnil
                  rw [hnil] at hvne
                  exact hvne rfl
                · exact fun c hc => List.mem_takeWhile_imp hc
                · refine ⟨?_, fun c hc => List.mem_takeWhile_imp hc⟩
                  intro hnil
                  rw [hnil] at hane
                  exact hane rfl
                · have e1 : rest = rest.takeWhile isWordChar ++ ':' :: rest2 := by
                    conv_lhs => rw [← List.takeWhile_append_dropWhile isWordChar rest]
                    rw [← drop_takeWhile_length isWordChar rest, hdrop]
                  have e2 : rest2 = rest2.takeWhile isSpaceChar ++ '[' :: rest3 := by
                    conv_lhs => rw [← List.takeWhile_append_dropWhile isSpaceChar rest2]
                    rw [← drop_takeWhile_length isSpaceChar rest2, hdrop2]
                  have e3 : rest3 = rest3.takeWhile isWordChar ++ ']' :: ']' :: tail := by
                    conv_lhs => rw [← List.takeWhile_append_dropWhile isWordChar rest3]
                    rw [← drop_takeWhile_length isWordChar rest3, hdrop3]
                  rw [fragment]
                  simp only [List.cons_append, List.append_assoc]
                  congr 1
                  conv_lhs => rw [e1]
                  conv_lhs => rw [e2]
                  conv_lhs => rw [e3]
                  simp

theorem fragHead_iff (l : Str) : FragHead l ↔ (matchFragAt l).isSome := by
  constructor
  · rintro ⟨v, ws, a, rest, hv, hws, ha, rfl⟩
    rw [matchFragAt_complete rest hv hws ha]
    rfl
  · intro h
    obtain ⟨⟨v, a⟩, hm⟩ := Option.isSome_iff_exists.mp h
    obtain ⟨ws, tail, hv, hws, ha, heq⟩ := matchFragAt_sound hm
    exact ⟨v, ws, a, tail, hv, hws, ha, heq⟩

theorem envelopeCapture_isSome_iff (s : Str) :
    (envelopeCapture s).isSome ↔ ContainsFragment s := by
  induction s with
  | nil =>
    simp only [envelopeCapture, Option.isSome_none, Bool.false_eq_true, false_iff]
    rintro ⟨pre, v, ws, a, post, hv, hws, ha, heq⟩
    have h1 := List.append_eq_nil.mp heq.symm
    have h2 := List.append_eq_nil.mp h1.1
    have : fragment v ws a ≠ [] := by simp [fragment]
    exact this h2.2
  | cons c rest ih =>
    cases hm : matchFragAt (c :: rest) with
    | some r =>
      obtain ⟨v0, a0⟩ := r
      simp only [envelopeCapture, hm, Option.isSome_some, true_iff]
      obtain ⟨ws, tail, hv, hws, ha, heq⟩ := matchFragAt_sound hm
      exact ⟨[], v0, ws, a0, tail, hv, hws, ha, by simpa using heq⟩
    | none =>
      simp only [envelopeCapture, hm]
      rw [ih]
      constructor
      · rintro ⟨pre, v, ws, a, post, hv, hws, ha, rfl⟩
        exact ⟨c :: pre, v, ws, a, post, hv, hws, ha, rfl⟩
      · rintro ⟨pre, v, ws, a, post, hv, hws, ha, heq⟩
        cases pre with
        | nil =>
          exfalso
          simp only [List.nil_append] at heq
          rw [heq, matchFragAt_complete post hv hws ha] at hm
          cases hm
        | cons c0 pre0 =>
          rw [List.cons_append, List.cons_append] at heq
          injection heq with h1 h2
          exact ⟨pre0, v, ws, a, post, hv, hws, ha, h2⟩

theorem envelopeCapture_first (pre : Str) :
    ∀ (s v ws a post : Str), WordStr v → SpaceStr ws → WordStr a →
      s = pre ++ fragment v ws a ++ post →
      (∀ j, j < pre.length → ¬ FragHead (s.drop j)) →
      envelopeCapture s = some (v, a) := by
  induction pre with
  | nil =>
    intro s v ws a post hv hws ha heq _
    subst heq
    simp only [List.nil_append]
    have hshape : fragment v ws a ++ post =
        '[' :: (v ++ ':' :: (ws ++ '[' :: (a ++ ']' :: ']' :: post))) := by
      simp [fragment]
    have hm : matchFragAt (fragment v ws a ++ post) = some (v, a) :=
      matchFragAt_complete post hv hws ha
    rw [hshape] at hm ⊢
    simp only [envelopeCapture, hm]
  | cons c0 pre0 ih =>
    intro s v ws a post hv hws ha heq hfirst
    subst heq
    rw [List.cons_append, List.cons_append]
    rw [List.cons_append, List.cons_append] at hfirst
    have hm : matchFragAt (c0 :: (pre0 ++ fragment v ws a ++ post)) = none := by
      cases hmm : matchFragAt (c0 :: (pre0 ++ fragment v ws a ++ post)) with
      | none => rfl
      | some r =>
        exfalso
        apply hfirst 0 (by simp)
        rw [List.drop_zero, fragHead_iff, hmm]
        rfl
    simp only [envelopeCapture, hm]
    apply ih (pre0 ++ fragment v ws a ++ post) v ws a post hv hws ha rfl
    intro j hj
    have := hfirst (j + 1) (by simpa using hj)
    simpa using this

/-- **C9.** The envelope regex is not anchored: a frame text is accepted
iff it contains an envelope fragment `[v:<ws>[a]]` (v, a nonempty word
runs, ws whitespace) anywhere as a substring, surrounding characters are
ignored, and the captures are taken from the first such fragment (the one
before whose start position no fragment begins). -/
theorem claim_C9_unanchored_match (s : Str) :
    ((envelopeCapture s).isSome ↔ ContainsFragment s) ∧
    (∀ pre v ws a post, WordStr v → SpaceStr ws → WordStr a →
      s = pre ++ fragment v ws a ++ post →
      (∀ j, j < pre.length → ¬ FragHead (s.drop j)) →
      envelopeCapture s = some (v, a)) :=
  ⟨envelopeCapture_isSome_iff s, fun pre v ws a post hv hws ha heq hf =>
    envelopeCapture_first pre s v ws a post hv hws ha heq hf⟩

/-- Witness for C9: in `xx[a:[b]]yy` the fragment `[a:[b]]` is found
despite the surrounding garbage, capturing `a` and `b`. -/
theorem claim_C9_unanchored_match_witness :
    envelopeCapture (str "xx[a:[b]]yy") = some (str "a", str "b") := by
  refine (claim_C9_unanchored_match (str "xx[a:[b]]yy")).2 (str "xx") (str "a") []
    (str "b") (str "yy") (by decide) (by decide) (by decide) (by decide) ?_
  intro j hj
  have hj2 : j < 2 := by simpa [str] using hj
  rw [fragHead_iff]
  interval_cases j
  · decide
  · decide

/-- **C1 (counterexample).** The claim says a frame failing the envelope
grammar is dropped without a Command, without a crash, and the connection
keeps being read.  On `[garbage]` (no envelope fragment) the code's
`captures(..).unwrap()` panics: `handleFrame` is `none` (Reader-thread
crash), not `some` of the unchanged queue. -/
theorem claim_C1_counterexample :
    handleFrame (str "127.0.0.1:40000") (str "[garbage]") [] = none ∧
    ¬ ContainsFragment (str "[garbage]") := by
  constructor
  · decide
  · rw [← envelopeCapture_isSome_iff]
    decide

/-- **C1 (amended).** For every inbound frame whose text fails the
envelope grammar (contains no fragment), the Reader produces no Command —
but instead of silently dropping the frame and continuing, it panics on
the `unwrap` of `Regex::captures`, crashing that connection's Reader
task, so subsequent frames on the connection are never processed. -/
theorem claim_C1_parse_failure_panics (peerAddr request : Str)
    (q : List TcpCommand) (h : ¬ ContainsFragment request) :
    handleFrame peerAddr request q = none := by
  rw [← envelopeCapture_isSome_iff] at h
  unfold handleFrame
  cases hm : envelopeCapture request with
  | none => rfl
  | some r => exact absurd (by rw [hm]; rfl) h

/-- Witness for C1 (amended): the Reader panics on `[fail me]`. -/
theorem claim_C1_parse_failure_panics_witness :
    handleFrame (str "10.1.1.1:2") (str "[fail me]") [] = none :=
  claim_C1_parse_failure_panics (str "10.1.1.1:2") (str "[fail me]") []
    (by rw [← envelopeCapture_isSome_iff]; decide)

theorem lookupReg_replace (reg : Registry) (key : Str) (v : Conn)
    (h : (lookupReg reg key).isSome) :
    lookupReg (reg.map (fun kv => if kv.1 = key then (key, v) else kv)) key =
      some v := by
  induction reg with
  | nil => simp [lookupReg] at h
  | cons kv rest ih =>
    obtain ⟨k, w⟩ := kv
    simp only [List.map_cons]
    by_cases hk : k = key
    · subst hk
      have hhead : (if (k, w).1 = k then (k, v) else (k, w)) = (k, v) := if_pos rfl
      rw [hhead]
      simp [lookupReg]
    · have hhead : (if (k, w).1 = key then (key, v) else (k, w)) = (k, w) :=
        if_neg hk
      rw [hhead]
      simp only [lookupReg, hk, if_false] at h ⊢
      exact ih h

/-- **C7 (counterexample).** The claim says a Registry entry is added by
the Reader at the first successfully parsed frame, and only if the
identity is absent.  In the code the insertion happens at accept time,
before any frame, and `insert(..).unwrap()` unwraps the *previous* value,
panicking precisely when the identity was absent: a fresh peer address
crashes the per-connection thread before a single frame is read. -/
theorem claim_C7_counterexample :
    acceptConn [] (str "192.168.0.10:51000") 3 = none := by
  decide

/-- **C7 (amended).** The per-connection thread inserts the peer address
into the Registry at accept time (before any frame): if the identity was
absent the thread panics on the `unwrap` of `insert`'s returned previous
value, and only if it was already present does the thread proceed (with
the entry now mapping to the new connection); on each successfully parsed
frame the constructed Command's sender equals the connection's peer
identity. -/
theorem claim_C7_registration_at_accept (reg : Registry) (peerAddr : Str)
    (conn : Conn) :
    (lookupReg reg peerAddr = none → acceptConn reg peerAddr conn = none) ∧
    ((lookupReg reg peerAddr).isSome →
      ∃ reg', acceptConn reg peerAddr conn = some reg' ∧
        lookupReg reg' peerAddr = some conn) ∧
    (∀ request q v a, envelopeCapture request = some (v, a) →
      handleFrame peerAddr request q = some (⟨v, a, peerAddr⟩ :: q)) := by
  refine ⟨?_, ?_, ?_⟩
  · intro h
    simp [acceptConn, insertReg, h]
  · intro h
    obtain ⟨old, hold⟩ := Option.isSome_iff_exists.mp h
    refine ⟨reg.map (fun kv => if kv.1 = peerAddr then (peerAddr, conn) else kv),
      ?_, lookupReg_replace reg peerAddr conn h⟩
    simp [acceptConn, insertReg, hold]
  · intro request q v a hm
    simp [handleFrame, hm, pushFront]

/-- Witness for C7 (amended): a fresh (absent) peer address panics the
per-connection thread at accept time. -/
theorem claim_C7_registration_at_accept_witness :
    acceptConn [] (str "10.9.9.9:1") 1 = none :=
  (claim_C7_registration_at_accept [] (str "10.9.9.9:1") 1).1 rfl

/-- **C5.** After sending `[register: [<name>]]` and performing one
blocking receive, `try_register` succeeds — storing the coordinator's
connection under the logical name `"home"` — if and only if the reply's
literal text equals `[OK: []]`; any other reply yields an error result
(carrying the received reply), no retry happens, and nothing is stored. -/
theorem claim_C5_registration_ack (name reply : Str) (clients : Registry)
    (conn : Conn) (hfree : lookupReg clients (str "home") = none) :
    registerFrame name = str "[register: [" ++ name ++ str "]]" ∧
    ((∃ clients', tryRegister reply clients conn = .registered clients' ∧
        lookupReg clients' (str "home") = some conn) ↔ reply = str "[OK: []]") ∧
    (reply ≠ str "[OK: []]" → tryRegister reply clients conn = .rejected reply) := by
  refine ⟨rfl, ?_, ?_⟩
  · by_cases hr : reply = str "[OK: []]"
    · subst hr
      simp only [tryRegister, ne_eq, not_true_eq_false, if_false, hfree,
        insertReg]
      constructor
      · intro _; trivial
      · intro _
        refine ⟨(str "home", conn) :: clients, rfl, ?_⟩
        simp [lookupReg]
    · constructor
      · rintro ⟨clients', hcl, _⟩
        rw [tryRegister, if_pos hr] at hcl
        cases hcl
      · intro h; exact absurd h hr
  · intro hr
    rw [tryRegister, if_pos hr]

/-- Witness for C5: a reply other than the exact literal is rejected. -/
theorem claim_C5_registration_ack_witness :
    tryRegister (str "[NO: []]") [] 2 = .rejected (str "[NO: []]") :=
  (claim_C5_registration_ack (str "dev01") (str "[NO: []]") [] 2 rfl).2.2
    (by decide)

/-! ## UTF-8 codec lemmas -/

theorem utf8EncodeChar_ne_nil (n : Nat) : utf8EncodeChar n ≠ [] := by
  unfold utf8EncodeChar
  split
  · simp
  · split
    · simp
    · split <;> simp

theorem utf8DecodeOne_encode (n : Nat) (h : ScalarValue n) (tail : List Nat) :
    utf8DecodeOne (utf8EncodeChar n ++ tail) = some (n, tail) := by
  obtain ⟨hlt, hsurr⟩ := h
  unfold utf8EncodeChar
  by_cases h1 : n < 0x80
  · rw [if_pos h1]
    simp only [List.cons_append, List.nil_append]
    simp only [utf8DecodeOne]
    rw [if_pos h1]
  · rw [if_neg h1]
    by_cases h2 : n < 0x800
    · rw [if_pos h2]
      simp only [List.cons_append, List.nil_append]
      simp only [utf8DecodeOne]
      rw [if_neg (by omega), if_neg (by omega), if_pos (by omega),
        if_pos (show 0x80 ≤ 0x80 + n % 0x40 ∧ 0x80 + n % 0x40 < 0xC0 by omega)]
      simp only [Option.some.injEq, Prod.mk.injEq]
      exact ⟨by omega, trivial⟩
    · rw [if_neg h2]
      by_cases h3 : n < 0x10000
      · rw [if_pos h3]
        simp only [List.cons_append, List.nil_append]
        simp only [utf8DecodeOne]
        rw [if_neg (by omega), if_neg (by omega), if_neg (by omega),
          if_pos (by omega)]
        rw [if_pos (show
          ((0xE0 + n / 0x1000 = 0xE0 ∧ 0xA0 ≤ 0x80 + n / 0x40 % 0x40 ∧
              0x80 + n / 0x40 % 0x40 < 0xC0) ∨
            (0xE1 ≤ 0xE0 + n / 0x1000 ∧ 0xE0 + n / 0x1000 ≤ 0xEC ∧
              0x80 ≤ 0x80 + n / 0x40 % 0x40 ∧ 0x80 + n / 0x40 % 0x40 < 0xC0) ∨
            (0xE0 + n / 0x1000 = 0xED ∧ 0x80 ≤ 0x80 + n / 0x40 % 0x40 ∧
              0x80 + n / 0x40 % 0x40 < 0xA0) ∨
            (0xEE ≤ 0xE0 + n / 0x1000 ∧ 0x80 ≤ 0x80 + n / 0x40 % 0x40 ∧
              0x80 + n / 0x40 % 0x40 < 0xC0)) ∧
          0x80 ≤ 0x80 + n % 0x40 ∧ 0x80 + n % 0x40 < 0xC0 by omega)]
        simp only [Option.some.injEq, Prod.mk.injEq]
        exact ⟨by omega, trivial⟩
      · rw [if_neg h3]
        simp only [List.cons_append, List.nil_append]
        simp only [utf8DecodeOne]
        rw [if_neg (by omega), if_neg (by omega), if_neg (by omega),
          if_neg (by omega), if_pos (by omega)]
        rw [if_pos (show
          ((0xF0 + n / 0x40000 = 0xF0 ∧ 0x90 ≤ 0x80 + n / 0x1000 % 0x40 ∧
              0x80 + n / 0x1000 % 0x40 < 0xC0) ∨
            (0xF1 ≤ 0xF0 + n / 0x40000 ∧ 0xF0 + n / 0x40000 ≤ 0xF3 ∧
              0x80 ≤ 0x80 + n / 0x1000 % 0x40 ∧ 0x80 + n / 0x1000 % 0x40 < 0xC0) ∨
            (0xF0 + n / 0x40000 = 0xF4 ∧ 0x80 ≤ 0x80 + n / 0x1000 % 0x40 ∧
              0x80 + n / 0x1000 % 0x40 < 0x90)) ∧
          0x80 ≤ 0x80 + n / 0x40 % 0x40 ∧ 0x80 + n / 0x40 % 0x40 < 0xC0 ∧
          0x80 ≤ 0x80 + n % 0x40 ∧ 0x80 + n % 0x40 < 0xC0 by omega)]
        simp only [Option.some.injEq, Prod.mk.injEq]
        exact ⟨by omega, trivial⟩

theorem utf8DecodeOne_sound {bs : List Nat} {c : Nat} {rest : List Nat}
    (h : utf8DecodeOne bs = some (c, rest)) :
    ScalarValue c ∧ bs = utf8EncodeChar c ++ rest ∧ rest.length < bs.length := by
  cases bs with
  | nil => simp [utf8DecodeOne] at h
  | cons b tl =>
    simp only [utf8DecodeOne] at h
    split at h
    case isTrue hb1 =>
      simp only [Option.some.injEq, Prod.mk.injEq] at h
      obtain ⟨hc, hr⟩ := h
      subst hc
      subst hr
      refine ⟨⟨by omega, by omega⟩, ?_, by simp only [List.length_cons]; omega⟩
      have he : utf8EncodeChar b = [b] := by
        unfold utf8EncodeChar
        rw [if_pos hb1]
      rw [he]
      rfl
    case isFalse hb1 =>
      split at h
      case isTrue => cases h
      case isFalse hb2 =>
        split at h
        case isTrue hb3 =>
          split at h
          case h_2 => cases h
          case h_1 c1 rest1 =>
            split at h
            case isFalse => cases h
            case isTrue hcond =>
              simp only [Option.some.injEq, Prod.mk.injEq] at h
              obtain ⟨hc, hr⟩ := h
              subst hc
              subst hr
              refine ⟨⟨by omega, by omega⟩, ?_, by simp only [List.length_cons]; omega⟩
              have he : utf8EncodeChar ((b - 0xC0) * 0x40 + (c1 - 0x80)) =
                  [b, c1] := by
                unfold utf8EncodeChar
                rw [if_neg (by omega), if_pos (by omega)]
                simp only [List.cons.injEq]
                exact ⟨by omega, by omega, trivial⟩
              rw [he]
              rfl
        case isFalse hb3 =>
          split at h
          case isTrue hb4 =>
            split at h
            case h_2 => cases h
            case h_1 c1 c2 rest2 =>
              split at h
              case isFalse => cases h
              case isTrue hcond =>
                simp only [Option.some.injEq, Prod.mk.injEq] at h
                obtain ⟨hc, hr⟩ := h
                subst hc
                subst hr
                refine ⟨⟨by omega, by omega⟩, ?_, by simp only [List.length_cons]; omega⟩
                have he : utf8EncodeChar
                    ((b - 0xE0) * 0x1000 + (c1 - 0x80) * 0x40 + (c2 - 0x80)) =
                    [b, c1, c2] := by
                  unfold utf8EncodeChar
                  rw [if_neg (by omega), if_neg (by omega), if_pos (by omega)]
                  simp only [List.cons.injEq]
                  exact ⟨by omega, by omega, by omega, trivial⟩
                rw [he]
                rfl
          case isFalse hb4 =>
            split at h
            case isFalse => cases h
            case isTrue hb5 =>
              split at h
              case h_2 => cases h
              case h_1 c1 c2 c3 rest3 =>
                split at h
                case isFalse => cases h
                case isTrue hcond =>
                  simp only [Option.some.injEq, Prod.mk.injEq] at h
                  obtain ⟨hc, hr⟩ := h
                  subst hc
                  subst hr
                  refine ⟨⟨by omega, by omega⟩, ?_, by simp only [List.length_cons]; omega⟩
                  have he : utf8EncodeChar
                      ((b - 0xF0) * 0x40000 + (c1 - 0x80) * 0x1000 +
                        (c2 - 0x80) * 0x40 + (c3 - 0x80)) = [b, c1, c2, c3] := by
                    unfold utf8EncodeChar
                    rw [if_neg (by omega), if_neg (by omega), if_neg (by omega)]
                    simp only [List.cons.injEq]
                    exact ⟨by omega, by omega, by omega, by omega, trivial⟩
                  rw [he]
                  rfl

theorem utf8EncodeList_cons (c : Nat) (cs : List Nat) :
    utf8EncodeList (c :: cs) = utf8EncodeChar c ++ utf8EncodeList cs := by
  simp [utf8EncodeList]

theorem utf8DecodeGo_encode (cs : List Nat) :
    ∀ fuel : Nat, (∀ c ∈ cs, ScalarValue c) →
      (utf8EncodeList cs).length ≤ fuel →
      utf8DecodeGo fuel (utf8EncodeList cs) = some cs := by
  induction cs with
  | nil =>
    intro fuel _ _
    show utf8DecodeGo fuel [] = some []
    cases fuel <;> rfl
  | cons c cs ih =>
    intro fuel hall hfuel
    have hc : ScalarValue c := hall c (List.mem_cons_self c cs)
    rw [utf8EncodeList_cons] at hfuel ⊢
    have hne := utf8EncodeChar_ne_nil c
    cases henc : utf8EncodeChar c with
    | nil => exact absurd henc hne
    | cons b ebs =>
      cases fuel with
      | zero =>
        exfalso
        rw [henc] at hfuel
        simp at hfuel
      | succ f =>
        simp only [List.cons_append, utf8DecodeGo, List.append_eq]
        have hone : utf8DecodeOne (b :: (ebs ++ utf8EncodeList cs)) =
            some (c, utf8EncodeList cs) := by
          rw [← List.cons_append, ← henc]
          exact utf8DecodeOne_encode c hc (utf8EncodeList cs)
        rw [hone]
        have hrec : utf8DecodeGo f (utf8EncodeList cs) = some cs := by
          apply ih f (fun x hx => hall x (List.mem_cons_of_mem c hx))
          rw [henc] at hfuel
          simp only [List.length_append, List.length_cons] at hfuel ⊢
          omega
        show (utf8DecodeGo f (utf8EncodeList cs)).map (fun l => c :: l) =
          some (c :: cs)
        rw [hrec]
        rfl

theorem utf8Decode_encode (cs : List Nat) (hall : ∀ c ∈ cs, ScalarValue c) :
    utf8Decode (utf8EncodeList cs) = some cs :=
  utf8DecodeGo_encode cs (utf8EncodeList cs).length hall (Nat.le_refl _)

theorem utf8DecodeGo_sound :
    ∀ (fuel : Nat) (bs cs : List Nat), utf8DecodeGo fuel bs = some cs →
      (∀ c ∈ cs, ScalarValue c) ∧ utf8EncodeList cs = bs := by
  intro fuel
  induction fuel with
  | zero =>
    intro bs cs h
    cases bs with
    | nil =>
      simp only [utf8DecodeGo, Option.some.injEq] at h
      subst h
      exact ⟨by simp, rfl⟩
    | cons b tl => simp [utf8DecodeGo] at h
  | succ f ih =>
    intro bs cs h
    cases bs with
    | nil =>
      simp only [utf8DecodeGo, Option.some.injEq] at h
      subst h
      exact ⟨by simp, rfl⟩
    | cons b tl =>
      simp only [utf8DecodeGo] at h
      cases hone : utf8DecodeOne (b :: tl) with
      | none => rw [hone] at h; cases h
      | some p =>
        obtain ⟨c0, rest1⟩ := p
        rw [hone] at h
        change (utf8DecodeGo f rest1).map (fun l => c0 :: l) = some cs at h
        cases hgo : utf8DecodeGo f rest1 with
        | none => rw [hgo] at h; cases h
        | some cs1 =>
          rw [hgo] at h
          simp only [Option.map_some', Option.some.injEq] at h
          subst h
          obtain ⟨hsc, henc, _⟩ := utf8DecodeOne_sound hone
          obtain ⟨hall1, henc1⟩ := ih rest1 cs1 hgo
          constructor
          · intro x hx
            rcases List.mem_cons.mp hx with rfl | hx2
            · exact hsc
            · exact hall1 x hx2
          · rw [utf8EncodeList_cons, henc1]
            exact henc.symm

theorem utf8Decode_sound {bs cs : List Nat} (h : utf8Decode bs = some cs) :
    (∀ c ∈ cs, ScalarValue c) ∧ utf8EncodeList cs = bs :=
  utf8DecodeGo_sound bs.length bs cs h

theorem utf8Valid_iff (bs : List Nat) : Utf8Valid bs ↔ (utf8Decode bs).isSome := by
  constructor
  · rintro ⟨cs, hall, rfl⟩
    rw [utf8Decode_encode cs hall]
    rfl
  · intro h
    obtain ⟨cs, hcs⟩ := Option.isSome_iff_exists.mp h
    obtain ⟨hall, henc⟩ := utf8Decode_sound hcs
    exact ⟨cs, hall, henc⟩

/-! ## Framing codec lemmas and claims -/

theorem toBE4_length (n : Nat) : (toBE4 n).length = 4 := rfl

theorem fromBE4_toBE4 (n : Nat) : fromBE4 (toBE4 n) = n % 0x100000000 := by
  simp only [toBE4, fromBE4, List.foldl_cons, List.foldl_nil]
  omega

/-- **C2.** Frame round-trip: `send_string` writes the payload's byte
length as a 4-byte big-endian `u32` followed by the UTF-8 bytes, and
`recv_string` reads exactly 4 length bytes and then exactly that many
payload bytes and returns the original text (leaving the remainder of the
stream untouched) — for every text whose byte length fits in a `u32`,
which covers the empty string and strings of 64 KiB and far beyond. -/
theorem claim_C2_roundtrip (text extra : List Nat)
    (hall : ∀ c ∈ text, ScalarValue c)
    (hlen : (utf8EncodeList text).length < 0x100000000) :
    sendString text =
      toBE4 ((utf8EncodeList text).length) ++ utf8EncodeList text ∧
    recvString (sendString text ++ extra) = .ok (text, extra) := by
  have hmod : (utf8EncodeList text).length % 0x100000000 =
      (utf8EncodeList text).length := Nat.mod_eq_of_lt hlen
  have hsend : sendString text =
      toBE4 ((utf8EncodeList text).length) ++ utf8EncodeList text := by
    unfold sendString
    rw [hmod]
  refine ⟨hsend, ?_⟩
  rw [hsend, List.append_assoc]
  have h4 : ¬ ((toBE4 (utf8EncodeList text).length ++
      (utf8EncodeList text ++ extra)).length < 4) := by
    simp [toBE4]
  unfold recvString
  rw [if_neg h4, List.take_left' (toBE4_length _), List.drop_left' (toBE4_length _),
    fromBE4_toBE4, hmod]
  have hshort : ¬ ((utf8EncodeList text ++ extra).length <
      (utf8EncodeList text).length) := by
    simp
  rw [if_neg hshort, List.take_left, utf8Decode_encode text hall, List.drop_left]

/-- Witness for C2: round-trip at a concrete text and stream remainder. -/
theorem claim_C2_roundtrip_witness :
    recvString (sendString [104, 105, 0x444] ++ [9, 9]) =
      .ok ([104, 105, 0x444], [9, 9]) :=
  (claim_C2_roundtrip [104, 105, 0x444] [9, 9] (by decide) (by decide)).2

/-- **C8.** `recv_string` reads exactly 4 length bytes and then exactly
that many payload bytes: a stream shorter than 4 bytes, or whose remainder
is shorter than the announced length, fails with `FrameIoError`
(`read_exact` short read); a complete frame whose payload is not valid
UTF-8 fails with `DecodeError`; a successful decode returns the text whose
encoding is exactly the payload and leaves exactly the bytes after the
payload unread; and a length prefix of 0 decodes successfully to the empty
string rather than an error. -/
theorem claim_C8_recv_errors (input : List Nat) :
    (input.length < 4 → recvString input = .error .frameIo) ∧
    (¬ input.length < 4 →
      (input.drop 4).length < fromBE4 (input.take 4) →
      recvString input = .error .frameIo) ∧
    (¬ input.length < 4 →
      ¬ (input.drop 4).length < fromBE4 (input.take 4) →
      ¬ Utf8Valid ((input.drop 4).take (fromBE4 (input.take 4))) →
      recvString input = .error .decodeErr) ∧
    (∀ text rest, recvString input = .ok (text, rest) →
      utf8EncodeList text = (input.drop 4).take (fromBE4 (input.take 4)) ∧
      rest = (input.drop 4).drop (fromBE4 (input.take 4))) ∧
    (¬ input.length < 4 → fromBE4 (input.take 4) = 0 →
      recvString input = .ok ([], input.drop 4)) := by
  refine ⟨?_, ?_, ?_, ?_, ?_⟩
  · intro h
    unfold recvString
    rw [if_pos h]
  · intro h hs
    unfold recvString
    rw [if_neg h, if_pos hs]
  · intro h hs hv
    rw [utf8Valid_iff] at hv
    have hdec : utf8Decode ((input.drop 4).take (fromBE4 (input.take 4))) =
        none := Option.not_isSome_iff_eq_none.mp hv
    unfold recvString
    rw [if_neg h, if_neg hs, hdec]
  · intro text rest h
    unfold recvString at h
    split at h
    case isTrue => cases h
    case isFalse h1 =>
      split at h
      case isTrue => cases h
      case isFalse h2 =>
        split at h
        case h_1 => cases h
        case h_2 cs heq =>
          simp only [Except.ok.injEq, Prod.mk.injEq] at h
          obtain ⟨hc, hr⟩ := h
          subst hc
          subst hr
          exact ⟨(utf8Decode_sound heq).2, rfl⟩
  · intro h h0
    unfold recvString
    rw [if_neg h, h0]
    rw [if_neg (Nat.not_lt_zero _), List.take_zero, List.drop_zero]
    rfl

/-- Witness for C8: a stream of only 3 bytes is a short read. -/
theorem claim_C8_recv_errors_witness :
    recvString [0, 0, 0] = .error .frameIo :=
  (claim_C8_recv_errors [0, 0, 0]).1 (by decide)

theorem utf8EncodeList_replicate_a (n : Nat) :
    utf8EncodeList (List.replicate n 97) = List.replicate n 97 := by
  induction n with
  | zero => rfl
  | succ m ih =>
    rw [List.replicate_succ, utf8EncodeList_cons, ih]
    rfl

theorem recvString_zero_prefix (R : List Nat) :
    recvString (toBE4 0 ++ R) = .ok ([], R) := by
  have h4 : ¬ ((toBE4 0 ++ R).length < 4) := by
    simp [toBE4]
  unfold recvString
  rw [if_neg h4, List.take_left' (toBE4_length _),
    List.drop_left' (toBE4_length _), fromBE4_toBE4, Nat.zero_mod]
  rw [if_neg (Nat.not_lt_zero _), List.take_zero, List.drop_zero]
  rfl

/-- **C10.** `send_string` computes the length prefix as the payload byte
length truncated to 32 bits (`bytes.len() as u32`): the prefix read back
equals the length modulo `2^32`, so it is exact for payloads shorter than
`2^32` bytes, while a payload of `2^32` or more bytes wraps — `2^32`
copies of `a` encode with prefix 0 and decode to the empty string, so the
round-trip no longer returns the original. -/
theorem claim_C10_length_truncation :
    (∀ text : List Nat, fromBE4 ((sendString text).take 4) =
      (utf8EncodeList text).length % 0x100000000) ∧
    (∀ text : List Nat, (utf8EncodeList text).length < 0x100000000 →
      fromBE4 ((sendString text).take 4) = (utf8EncodeList text).length) ∧
    (∃ text : List Nat, (∀ c ∈ text, ScalarValue c) ∧
      0x100000000 ≤ (utf8EncodeList text).length ∧
      recvString (sendString text) = .ok ([], utf8EncodeList text) ∧
      text ≠ []) := by
  have hpre : ∀ text : List Nat, fromBE4 ((sendString text).take 4) =
      (utf8EncodeList text).length % 0x100000000 := by
    intro text
    unfold sendString
    rw [List.take_left' (toBE4_length _), fromBE4_toBE4]
    omega
  refine ⟨hpre, ?_, ?_⟩
  · intro text hlt
    rw [hpre text]
    omega
  · refine ⟨List.replicate 0x100000000 97, ?_, ?_, ?_, ?_⟩
    · intro c hc
      rw [List.eq_of_mem_replicate hc]
      decide
    · rw [utf8EncodeList_replicate_a, List.length_replicate]
    · have hsend : sendString (List.replicate 0x100000000 97) =
          toBE4 0 ++ List.replicate 0x100000000 97 := by
        unfold sendString
        rw [utf8EncodeList_replicate_a, List.length_replicate, Nat.mod_self]
      rw [hsend, utf8EncodeList_replicate_a, recvString_zero_prefix]
    · intro hnil
      have hlen := congrArg List.length hnil
      rw [List.length_replicate] at hlen
      simp at hlen

/-- Witness for C10: at a concrete 3-byte payload the prefix is exact. -/
theorem claim_C10_length_truncation_witness :
    fromBE4 ((sendString [104, 105, 106]).take 4) = 3 := by
  have h := claim_C10_length_truncation.2.1 [104, 105, 106] (by decide)
  rw [h]
  decide
